import Mathlib

/-!
Verification of the OmniWordlistPro generation-and-refinement pipeline.

Rust `String` values (tokens, charsets, specifier strings) are modelled as
their character sequences, `List Char`.  Machine integers (`usize`, `u64`)
are modelled as `Nat`; the one place where the 64-bit bound is observable
(`str::parse::<usize>` overflow) models it explicitly.  `f64` is modelled
as `ℝ` where a value is computed (Shannon entropy) and as `ℚ` where a value
is merely stored.  Fallible Rust functions returning `Result` are modelled
with `Except`.
-/

/-- Character list of a string literal (Rust `String` is modelled as `List Char`). -/
def str (s : String) : List Char := s.data

/-- A token is one generated candidate string (src/lib.rs pipeline unit). -/
abbrev Token := List Char

/-- Lexicographic strict order on character lists, mirroring the `Ord`
instance Rust uses for `String` comparison in `skip_while (t < start)` and
`take_while (t <= end)` (byte order and char order agree on the ASCII
tokens the generator handles). -/
def lexLt : List Char → List Char → Bool
  | [], [] => false
  | [], _ :: _ => true
  | _ :: _, [] => false
  | a :: as, b :: bs => if a < b then true else if b < a then false else lexLt as bs

/-- Lexicographic non-strict order: `s <= t` is the negation of `t < s`. -/
def lexLe (s t : List Char) : Bool := !(lexLt t s)

theorem lexLt_irrefl (a : List Char) : lexLt a a = false := by
  induction a with
  | nil => rfl
  | cons x xs ih => simp [lexLt, ih]

theorem lexLt_trans : ∀ {a b c : List Char},
    lexLt a b = true → lexLt b c = true → lexLt a c = true := by
  intro a
  induction a with
  | nil =>
    intro b c hab hbc
    cases b with
    | nil => simp [lexLt] at hab
    | cons y ys =>
      cases c with
      | nil => simp [lexLt] at hbc
      | cons z zs => simp [lexLt]
  | cons x xs ih =>
    intro b c hab hbc
    cases b with
    | nil => simp [lexLt] at hab
    | cons y ys =>
      cases c with
      | nil => simp [lexLt] at hbc
      | cons z zs =>
        simp only [lexLt] at hab hbc ⊢
        split at hab
        · rename_i hxy
          split at hbc
          · rename_i hyz
            simp [lt_trans hxy hyz]
          · split at hbc
            · exact absurd hbc (by simp)
            · rename_i hzy hyz
              have hyz' : y = z := le_antisymm (not_lt.mp hyz) (not_lt.mp hzy)
              subst hyz'
              simp [hxy]
        · split at hab
          · exact absurd hab (by simp)
          · rename_i hyx hxy
            have hxy' : x = y := le_antisymm (not_lt.mp hxy) (not_lt.mp hyx)
            subst hxy'
            split at hbc
            · rename_i hxz
              simp [hxz]
            · split at hbc
              · exact absurd hbc (by simp)
              · rename_i hzx hxz
                have hxz' : x = z := le_antisymm (not_lt.mp hxz) (not_lt.mp hzx)
                subst hxz'
                simp only [lt_irrefl, if_false]
                exact ih hab hbc

theorem lexLt_total : ∀ (a b : List Char),
    lexLt a b = true ∨ a = b ∨ lexLt b a = true := by
  intro a
  induction a with
  | nil =>
    intro b
    cases b with
    | nil => exact Or.inr (Or.inl rfl)
    | cons y ys => exact Or.inl (by simp [lexLt])
  | cons x xs ih =>
    intro b
    cases b with
    | nil => exact Or.inr (Or.inr (by simp [lexLt]))
    | cons y ys =>
      rcases lt_trichotomy x y with hxy | hxy | hxy
      · exact Or.inl (by simp [lexLt, hxy])
      · subst hxy
        rcases ih ys with h | h | h
        · exact Or.inl (by simp [lexLt, h])
        · exact Or.inr (Or.inl (by rw [h]))
        · exact Or.inr (Or.inr (by simp [lexLt, h]))
      · exact Or.inr (Or.inr (by simp [lexLt, hxy]))

theorem lexLe_trans {a b c : List Char}
    (hab : lexLe a b = true) (hbc : lexLe b c = true) : lexLe a c = true := by
  simp only [lexLe, Bool.not_eq_true'] at hab hbc ⊢
  by_contra hca
  rw [Bool.not_eq_false] at hca
  rcases lexLt_total b c with h | h | h
  · have := lexLt_trans h hca
    rw [this] at hab
    exact absurd hab (by simp)
  · subst h
    rw [hca] at hab
    exact absurd hab (by simp)
  · rw [h] at hbc
    exact absurd hbc (by simp)

theorem lexLe_of_not_lexLt {a b : List Char} (h : lexLt a b = false) :
    lexLe b a = true := by
  simp [lexLe, h]

/-! ## Charset resolution (src/charset.rs) -/

/-- Named preset character sets; embeds the `CHARSETS` table (src/charset.rs:9). -/
def CHARSETS (name : List Char) : Option (List Char) :=
  if name = str "lower" then some (str "abcdefghijklmnopqrstuvwxyz")
  else if name = str "upper" then some (str "ABCDEFGHIJKLMNOPQRSTUVWXYZ")
  else if name = str "digit" then some (str "0123456789")
  else if name = str "symbol" then some (str "!@#$%^&*()_+-=[]\x7b\x7d|;:,.<>?")
  else if name = str "alpha" then
    some (str "abcdefghijklmnopqrstuvwxyzABCDEFGHIJKLMNOPQRSTUVWXYZ")
  else if name = str "alnum" then
    some (str "abcdefghijklmnopqrstuvwxyzABCDEFGHIJKLMNOPQRSTUVWXYZ0123456789")
  else if name = str "space" then
    some (str "abcdefghijklmnopqrstuvwxyzABCDEFGHIJKLMNOPQRSTUVWXYZ0123456789 ")
  else if name = str "hex" then some (str "0123456789abcdef")
  else if name = str "hex_upper" then some (str "0123456789ABCDEF")
  else if name = str "printable" then
    some (str "abcdefghijklmnopqrstuvwxyzABCDEFGHIJKLMNOPQRSTUVWXYZ0123456789!@#$%^&*()_+-=[]\x7b\x7d|;:,.<>? ")
  else none

/-- Pattern marker table; embeds `PATTERN_MARKERS` (src/charset.rs:24). -/
def PATTERN_MARKERS (c : Char) : Option (List Char) :=
  if c = '@' then some (str "lower")
  else if c = '%' then some (str "digit")
  else if c = '^' then some (str "symbol")
  else if c = ',' then some (str "upper")
  else if c = '?' then some (str "alnum")
  else if c = '!' then some (str "printable")
  else none

/-- Embeds `expand_pattern` (src/charset.rs:149): scans the pattern one
character at a time; a character of the literal set is emitted verbatim, a
recognized marker appends the whole preset, anything else is emitted as a
literal.  The Rust function returns `Result` but has no error path, so the
model returns the charset directly. -/
def expand_pattern (pattern : List Char) (literal_markers : Option (List Char)) :
    List Char :=
  let literal_set := literal_markers.getD []
  pattern.flatMap fun ch =>
    if ch ∈ literal_set then [ch]
    else
      match PATTERN_MARKERS ch with
      | some name => (CHARSETS name).getD []
      | none => [ch]

/-! ## Configuration (src/config.rs) -/

/-- Embeds `FilterConfig` (src/config.rs:89).  `entropy_min` is an `f64`
that is stored but never read by the code under verification; every finite
double is rational, so it is modelled as `ℚ`. -/
structure FilterConfig where
  min_len : Option Nat
  max_len : Option Nat
  charset_filter : Option (List Char)
  exclude_charset : Option (List Char)
  regex_pattern : Option (List Char)
  entropy_min : Option ℚ
  language_filter : Option (List Char)
deriving DecidableEq, Repr

/-- Embeds `FilterConfig::default` (src/config.rs:134). -/
def FilterConfig.default : FilterConfig :=
  ⟨none, none, none, none, none, none, none⟩

/-- Embeds `Config` (src/config.rs:5), restricted to the fields consulted by
the generation pipeline under verification.  `pfx`/`sfx` model the Rust
fields named `prefix`/`suffix`; `literal_chars` is the field set by main.rs
and read by `generate_pattern`.  Output-sink, RNG and UI knobs
(`output_file`, `compression`, `max_bytes`, `separator`, `enabled_fields`,
`workers`, `checkpoint_dir`, `bloom_fp_rate`, `buffer_size`, `verbose`,
`colorized`, `seed`) influence none of the verified functions and are
omitted. -/
structure Config where
  min_length : Nat
  max_length : Nat
  charset : Option (List Char)
  pattern : Option (List Char)
  literal_chars : Option (List Char)
  start_string : Option (List Char)
  end_string : Option (List Char)
  max_lines : Option Nat
  duplicate_limit : Option (List Char)
  permutations_only : Bool
  invert : Bool
  pfx : Option (List Char)
  sfx : Option (List Char)
  transforms : List (List Char)
  filters : FilterConfig
  dedupe : Bool
deriving DecidableEq, Repr

/-- Embeds `Config::default` (src/config.rs:100) on the modelled fields. -/
def Config.default : Config where
  min_length := 1
  max_length := 10
  charset := none
  pattern := none
  literal_chars := none
  start_string := none
  end_string := none
  max_lines := none
  duplicate_limit := none
  permutations_only := false
  invert := false
  pfx := none
  sfx := none
  transforms := []
  filters := FilterConfig.default
  dedupe := true

/-- Embeds `Config::validate` (src/config.rs:149): rejects
`min_length > max_length`, `min_length == 0` and `max_length > 1000`. -/
def Config.validate (c : Config) : Bool :=
  decide (c.min_length ≤ c.max_length) && decide (1 ≤ c.min_length) &&
    decide (c.max_length ≤ 1000)

/-! ## Enumeration (src/generator.rs) -/

/-- Embeds `Generator::generate_combinations_recursive` (src/generator.rs:161).
The Rust recursion pushes a character, recurses, then pops; the functional
reading passes `current ++ [ch]`.  The `Nat` argument is the remaining
depth `length - current.len()`, the quantity the structural recursion of the
source decreases. -/
def generate_combinations_recursive (chars : List Char) (current : Token) :
    Nat → List Token
  | 0 => [current]
  | n + 1 => chars.flatMap fun ch =>
      generate_combinations_recursive chars (current ++ [ch]) n

/-- Embeds `Generator::permute_helper` (src/generator.rs:202): iterates over
all charset indices, skips the ones in the `used` set (a `HashSet<usize>`,
modelled as a list consulted only through membership) and recurses with the
index marked used.  The `Nat` argument is the remaining depth. -/
def permute_helper (chars : List Char) (current : Token) (used : List Nat) :
    Nat → List Token
  | 0 => [current]
  | n + 1 => (List.range chars.length).flatMap fun i =>
      if i ∈ used then []
      else permute_helper chars (current ++ [chars.getD i default]) (i :: used) n

/-- Embeds `Generator::generate_permutations` (src/generator.rs:183):
empty output (not an error) when the requested length exceeds the charset
size, otherwise the backtracking helper from the empty state. -/
def generate_permutations (chars : List Char) (length : Nat) : List Token :=
  if chars.length < length then []
  else permute_helper chars [] [] length

/-! ## Duplicate suppression, bounding, decoration (src/generator.rs) -/

/-- Embeds `str::parse::<usize>` on a digit string: succeeds on a nonempty
all-decimal-digit string whose value fits in 64 bits, fails otherwise. -/
def parseUsize (s : List Char) : Option Nat :=
  if s ≠ [] ∧ s.all (·.isDigit) then
    let v := s.foldl (fun acc c => acc * 10 + (c.toNat - 48)) 0
    if v < 2 ^ 64 then some v else none
  else none

/-- Embeds the limit parsing of `Generator::check_duplicate_limit`
(src/generator.rs:348): the leading run of numeric characters is parsed,
defaulting to 1 when absent or unparsable.  Rust uses `char::is_numeric`;
it is modelled by `Char.isDigit`, which agrees on ASCII (a leading run
containing a non-ASCII numeric character fails `parse` and also defaults
to 1). -/
def parse_duplicate_limit (limit_spec : List Char) : Nat :=
  match parseUsize (limit_spec.takeWhile (·.isDigit)) with
  | some n => n
  | none => 1

/-- Embeds the scanning loop of `check_duplicate_limit`
(src/generator.rs:354): `count` adjacent equal characters seen so far
ending at `prev`; reject as soon as a run exceeds `limit`. -/
def dupLoop (limit : Nat) : Nat → Char → List Char → Bool
  | _, _, [] => true
  | count, prev, c :: rest =>
    if c = prev then
      if limit < count + 1 then false else dupLoop limit (count + 1) c rest
    else dupLoop limit 1 c rest

/-- Embeds `Generator::check_duplicate_limit` (src/generator.rs:344):
true iff no run of identical adjacent characters exceeds the parsed limit. -/
def check_duplicate_limit (token : Token) (limit_spec : List Char) : Bool :=
  let limit := parse_duplicate_limit limit_spec
  match token with
  | [] => true
  | c :: rest => dupLoop limit 1 c rest

/-- Embeds `Generator::apply_duplicate_suppression` (src/generator.rs:333). -/
def apply_duplicate_suppression (c : Config) (tokens : List Token) : List Token :=
  match c.duplicate_limit with
  | some dup_limit => tokens.filter (fun t => check_duplicate_limit t dup_limit)
  | none => tokens

/-- Embeds `Generator::invert_tokens` (src/generator.rs:372): reverses the
batch when the invert flag is set. -/
def invert_tokens (c : Config) (tokens : List Token) : List Token :=
  if c.invert then tokens.reverse else tokens

/-- Embeds the start/end bounding stage of `Generator::generate_combinations`
(src/generator.rs:125): `skip_while (t < start)` then `take_while (t <= end)`. -/
def range_bound (start end_ : Option Token) (tokens : List Token) : List Token :=
  let tokens := match start with
    | some start_str => tokens.dropWhile (fun t => lexLt t start_str)
    | none => tokens
  match end_ with
  | some end_str => tokens.takeWhile (fun t => lexLe t end_str)
  | none => tokens

/-- Embeds `Generator::generate_combinations` (src/generator.rs:104):
enumerate (combinations or permutations), bound by start/end, attach
prefix and suffix, apply duplicate suppression, then invert. -/
def generate_combinations (c : Config) (charset : List Char) (length : Nat)
    (start end_ : Option Token) : List Token :=
  let tokens :=
    if c.permutations_only then generate_permutations charset length
    else generate_combinations_recursive charset [] length
  let tokens := range_bound start end_ tokens
  let tokens := match c.pfx with
    | some p => tokens.map (fun t => p ++ t)
    | none => tokens
  let tokens := match c.sfx with
    | some s => tokens.map (fun t => t ++ s)
    | none => tokens
  let tokens := apply_duplicate_suppression c tokens
  invert_tokens c tokens

/-- Embeds the length loop of `Generator::generate_from_charset`
(src/generator.rs:83): lengths ascending from `min_length`, each batch
appended, with the `max_lines` truncate-and-break check after each batch.
The second argument counts the lengths still to process. -/
def generate_loop (c : Config) (charset : List Char) (acc : List Token) :
    Nat → Nat → List Token
  | _, 0 => acc
  | len, n + 1 =>
    let acc := acc ++ generate_combinations c charset len c.start_string c.end_string
    match c.max_lines with
    | some limit =>
        if limit ≤ acc.length then acc.take limit
        else generate_loop c charset acc (len + 1) n
    | none => generate_loop c charset acc (len + 1) n

/-- Embeds `Generator::generate_from_charset` (src/generator.rs:83): the
range `min_length..=max_length` has `max_length + 1 - min_length` entries. -/
def generate_from_charset (c : Config) (charset : List Char) : List Token :=
  generate_loop c charset [] c.min_length (c.max_length + 1 - c.min_length)

/-- Embeds `Generator::resolve_charset` (src/generator.rs:314): the custom
charset if set, otherwise the `lower` preset (whose characters are already
distinct, so `CharsetBuilder::build` deduplication is the identity on it). -/
def resolve_charset (c : Config) : List Char :=
  match c.charset with
  | some cs => cs
  | none => str "abcdefghijklmnopqrstuvwxyz"

/-- Embeds `Generator::generate_charset` (src/generator.rs:38). -/
def generate_charset (c : Config) : List Token :=
  generate_from_charset c (resolve_charset c)

/-! ## Filter chain (src/filters.rs, src/generator.rs:284) -/

/-- A filter chain is the list of boxed predicates (src/filters.rs:9). -/
abbrev FilterChain := List (Token → Bool)

/-- Embeds `FilterChain::add_length` (src/filters.rs:20).  Rust tests
`s.len()` (byte length); on the ASCII tokens of this pipeline it equals the
character count used here. -/
def add_length (fs : FilterChain) (min max : Nat) : FilterChain :=
  fs ++ [fun t => decide (min ≤ t.length) && decide (t.length ≤ max)]

/-- Embeds `FilterChain::add_charset` (src/filters.rs:28): every character
of the token must occur in the allowed string. -/
def add_charset (fs : FilterChain) (allowed : List Char) : FilterChain :=
  fs ++ [fun t => t.all (fun ch => allowed.contains ch)]

/-- Embeds `FilterChain::apply` (src/filters.rs:105): all predicates pass. -/
def chain_apply (fs : FilterChain) (t : Token) : Bool := fs.all (fun f => f t)

/-- Embeds `FilterChain::apply_batch` (src/filters.rs:109). -/
def apply_batch (fs : FilterChain) (tokens : List Token) : List Token :=
  tokens.filter (chain_apply fs)

/-- Embeds `Generator::apply_filters` (src/generator.rs:284): the length
filter is installed only when `min_len` and `max_len` are both set, the
allowed-charset filter when `charset_filter` is set; no other field of
`FilterConfig` is consulted. -/
def apply_filters (c : Config) (tokens : List Token) : List Token :=
  let chain : FilterChain := []
  let chain := match c.filters.min_len with
    | some min =>
        match c.filters.max_len with
        | some max => add_length chain min max
        | none => chain
    | none => chain
  let chain := match c.filters.charset_filter with
    | some cs => add_charset chain cs
    | none => chain
  apply_batch chain tokens

/-! ## Errors (src/error.rs) -/

/-- Embeds the `Error` enum (src/error.rs), restricted to the variants
reachable from the verified functions.  `SerializationError` wraps a
`serde_json::Error` in Rust; only its occurrence matters here. -/
inductive Error where
  | ConfigError (msg : List Char)
  | GeneratorError (msg : List Char)
  | TransformError (msg : List Char)
  | StorageError (msg : List Char)
  | SerializationError
  | InvalidCharset (msg : List Char)
deriving DecidableEq, Repr

/-! ## Transforms (src/transforms.rs, src/generator.rs:251) -/

/-- Embeds the `Transform` enum (src/transforms.rs:64), restricted to the
eleven variants producible by `Generator::parse_transform`
(src/generator.rs:263); the remaining variants are unreachable from the
verified pipeline and are omitted. -/
inductive Transform where
  | LeetBasic
  | LeetFull
  | LeetRandom
  | Reverse
  | ToggleCase
  | UpperCase
  | LowerCase
  | Capitalize
  | Homoglyph
  | EmojiInsertion
  | KeyboardShift
deriving DecidableEq, Repr

/-- Embeds the `LEET_MAP` table of src/transforms.rs:11 (replacement strings
per lowercase character). -/
def LEET_MAP (c : Char) : Option (List (List Char)) :=
  if c = 'a' then some [str "4", str "@"]
  else if c = 'e' then some [str "3", str "€"]
  else if c = 'i' then some [str "1", str "!", str "|"]
  else if c = 'o' then some [str "0", str "()"]
  else if c = 's' then some [str "5", str "$", str "z"]
  else if c = 't' then some [str "7", str "+"]
  else if c = 'l' then some [str "1", str "|"]
  else if c = 'g' then some [str "9", str "&", str "6"]
  else if c = 'z' then some [str "2", str "~"]
  else if c = 'b' then some [str "8", str "|3", str "ß"]
  else if c = 'x' then some [str "*"]
  else none

/-- Embeds the `HOMOGLYPH_MAP` table of src/transforms.rs:27. -/
def HOMOGLYPH_MAP (c : Char) : Option (List (List Char)) :=
  if c = 'a' then some [str "а", str "ɑ", str "α", str "ａ"]
  else if c = 'e' then some [str "е", str "ε", str "ｅ"]
  else if c = 'o' then some [str "о", str "ο", str "ο", str "ｏ"]
  else if c = 'p' then some [str "р", str "ρ", str "ｐ"]
  else if c = 'c' then some [str "с", str "ϲ", str "ｃ"]
  else if c = 'x' then some [str "х", str "χ", str "ｘ"]
  else if c = 'h' then some [str "һ", str "ｈ"]
  else if c = 'n' then some [str "ո", str "ｎ"]
  else none

/-- Embeds the `KEYBOARD_SHIFT_MAP` table of src/transforms.rs:40. -/
def KEYBOARD_SHIFT_MAP (c : Char) : Option (List (List Char)) :=
  if c = 'a' then some [str "q", str "s"]
  else if c = 'e' then some [str "r", str "w", str "d"]
  else if c = 'i' then some [str "u", str "o", str "k"]
  else if c = 'o' then some [str "i", str "p", str "l"]
  else if c = 's' then some [str "a", str "d", str "w", str "x"]
  else if c = 't' then some [str "r", str "y", str "f", str "g"]
  else none

/-- Embeds `Generator::parse_transform` (src/generator.rs:263): the fixed
name registry; an unknown name is a `TransformError`. -/
def parse_transform (name : List Char) : Except Error Transform :=
  if name = str "leet_basic" then .ok .LeetBasic
  else if name = str "leet_full" then .ok .LeetFull
  else if name = str "leet_random" then .ok .LeetRandom
  else if name = str "reverse" then .ok .Reverse
  else if name = str "toggle_case" then .ok .ToggleCase
  else if name = str "upper" then .ok .UpperCase
  else if name = str "lower" then .ok .LowerCase
  else if name = str "capitalize" then .ok .Capitalize
  else if name = str "homoglyph" then .ok .Homoglyph
  else if name = str "emoji" then .ok .EmojiInsertion
  else if name = str "keyboard_shift" then .ok .KeyboardShift
  else .error (.TransformError (str "Unknown transform: " ++ name))

/-- Embeds `toggle_case` (src/transforms.rs:354).  Rust maps each character
through `to_lowercase`/`to_uppercase` (which agree with the one-character
`Char.toLower`/`Char.toUpper` on the ASCII range handled here). -/
def toggle_case (s : Token) : Token :=
  s.map fun c => if c.isUpper then c.toLower else c.toUpper

/-- Embeds `capitalize` (src/transforms.rs:366). -/
def capitalize (s : Token) : Token :=
  match s with
  | [] => []
  | first :: rest => first.toUpper :: rest

/-- Embeds `apply_transform` (src/transforms.rs:132) on the eleven
reachable variants.  Every Rust arm returns `Ok`, mirrored by `.ok`.
`pick` models `SliceRandom::choose(&mut thread_rng())`: an arbitrary
selection oracle, so any RNG behaviour is covered; `choose` returns `None`
only on the empty slice, and the `else` branches mirror the Rust
`if let Some / else` structure.  `EmojiInsertion` splits at half the token
length (`token.len()/2`, byte length in Rust, character count here — the
two agree on ASCII tokens) and inserts the first emoji of the fixed table
followed by the underscore of the `"{}{}_{}"` format string. -/
def applyTransform (pick : List (List Char) → Option (List Char))
    (t : Transform) (token : Token) : Except Error Token :=
  match t with
  | .LeetBasic => .ok (token.flatMap fun ch =>
      match LEET_MAP ch.toLower with
      | some replacements => replacements.headD []
      | none => [ch])
  | .LeetFull => .ok (token.flatMap fun ch =>
      match LEET_MAP ch.toLower with
      | some replacements => replacements.flatten
      | none => [ch])
  | .LeetRandom => .ok (token.flatMap fun ch =>
      match LEET_MAP ch.toLower with
      | some replacements =>
          match pick replacements with
          | some replacement => replacement
          | none => [ch]
      | none => [ch])
  | .Reverse => .ok token.reverse
  | .ToggleCase => .ok (toggle_case token)
  | .UpperCase => .ok (token.map Char.toUpper)
  | .LowerCase => .ok (token.map Char.toLower)
  | .Capitalize => .ok (capitalize token)
  | .Homoglyph => .ok (token.flatMap fun ch =>
      match HOMOGLYPH_MAP ch.toLower with
      | some replacements => replacements.headD []
      | none => [ch])
  | .EmojiInsertion =>
      let pos := token.length / 2
      .ok (token.take pos ++ ['😀', '_'] ++ token.drop pos)
  | .KeyboardShift => .ok (token.flatMap fun ch =>
      match KEYBOARD_SHIFT_MAP ch.toLower with
      | some shifts =>
          match pick shifts with
          | some shift => shift
          | none => [ch]
      | none => [ch])

theorem except_bind_ok {ε α β : Type} (a : α) (k : α → Except ε β) :
    (Except.ok a >>= k) = k a := rfl

theorem except_bind_error {ε α β : Type} (e : ε) (k : α → Except ε β) :
    ((Except.error e : Except ε α) >>= k) = Except.error e := rfl

/-- Fallible map over a list, stopping at the first error: the shape of the
Rust loops that use the `?` operator on each element. -/
def mapExcept {α β : Type} (f : α → Except Error β) :
    List α → Except Error (List β)
  | [] => .ok []
  | x :: xs => do
    let b ← f x
    let bs ← mapExcept f xs
    pure (b :: bs)

/-- Embeds `TransformPipeline::apply` (src/transforms.rs:115): left-to-right
composition over the transform list, propagating the first error. -/
def pipeline_apply (pick : List (List Char) → Option (List Char)) :
    List Transform → Token → Except Error Token
  | [], token => .ok token
  | tr :: rest, token => do
    let result ← applyTransform pick tr token
    pipeline_apply pick rest result

/-- Embeds `TransformPipeline::apply_all` (src/transforms.rs:125). -/
def pipeline_apply_all (pick : List (List Char) → Option (List Char))
    (transforms : List Transform) (tokens : List Token) :
    Except Error (List Token) :=
  mapExcept (pipeline_apply pick transforms) tokens

/-- Embeds `Generator::apply_transforms` (src/generator.rs:251): parse every
configured name (failing fast on the first unknown one), then run the
pipeline over the batch. -/
def apply_transforms (c : Config) (pick : List (List Char) → Option (List Char))
    (tokens : List Token) : Except Error (List Token) := do
  let transforms ← mapExcept parse_transform c.transforms
  pipeline_apply_all pick transforms tokens

/-! ## Shannon entropy (src/filters.rs:117) -/

/-- Base-2 logarithm over the reals, modelling `f64::log2`. -/
noncomputable def log2 (x : ℝ) : ℝ := Real.log x / Real.log 2

/-- Embeds `calculate_entropy` (src/filters.rs:117): 0 for the empty
string, otherwise minus the sum over the frequency map (one entry per
distinct character, modelled by `List.dedup`) of `p * log2 p` with
`p = count / len`.  `f64` arithmetic is modelled by exact real arithmetic. -/
noncomputable def calculate_entropy (s : List Char) : ℝ :=
  if s.length = 0 then 0
  else
    let len : ℝ := s.length
    let total : ℝ := (s.dedup.map fun c =>
        ((s.count c : ℝ) / len) * log2 ((s.count c : ℝ) / len)).sum
    0 - total

/-! ## Checkpoint storage (src/storage.rs) -/

/-- Embeds `CheckpointState` (src/storage.rs:205). -/
structure CheckpointState where
  job_id : List Char
  timestamp : List Char
  config : Config
  last_token : Option (List Char)
  tokens_generated : Nat
  current_length : Nat
  start_index : Nat
deriving DecidableEq, Repr

/-- The checkpoint directory contents, modelled as an association list from
file path to file content; a write shadows earlier entries for its path. -/
abbrev Fs := List (List Char × List Char)

/-- File-system write (`std::fs::write`): the new entry shadows older ones. -/
def fsWrite (fs : Fs) (path content : List Char) : Fs := (path, content) :: fs

/-- File lookup: content of the most recent write to `path`, if any
(`path.exists()` + `std::fs::read_to_string`). -/
def fsLookup (fs : Fs) (path : List Char) : Option (List Char) :=
  (fs.find? fun e => e.1 = path).map (·.2)

/-- Checkpoint file path for a job id (src/storage.rs:162, 170):
`checkpoint_dir/{job_id}.json`. -/
def checkpoint_path (job_id : List Char) : List Char := job_id ++ str ".json"

/-- Embeds `CheckpointManager::save_checkpoint` (src/storage.rs:157).
`enc` models `serde_json::to_string_pretty`, an external collaborator kept
abstract; the round-trip contract `dec (enc st) = some st` appears as a
hypothesis where needed. -/
def save_checkpoint (enc : CheckpointState → List Char) (fs : Fs)
    (job_id : List Char) (state : CheckpointState) : Fs :=
  fsWrite fs (checkpoint_path job_id) (enc state)

/-- Embeds `CheckpointManager::load_checkpoint` (src/storage.rs:169):
`Ok None` when the file is absent, a `SerializationError` when present but
unparsable (`dec` models `serde_json::from_str`), `Ok (Some state)`
otherwise. -/
def load_checkpoint (dec : List Char → Option CheckpointState) (fs : Fs)
    (job_id : List Char) : Except Error (Option CheckpointState) :=
  match fsLookup fs (checkpoint_path job_id) with
  | none => .ok none
  | some content =>
      match dec content with
      | some state => .ok (some state)
      | none => .error .SerializationError

/-! ## Base-k counter characterization of combination mode (claim C1) -/

/-- Width-`n` base-`|chars|` representation of `i`, most significant digit
first, digits read through the charset: the spec-side base-`|charset|`
counter that starts at the all-first-character string. -/
def tokenOfIndex (chars : List Char) : Nat → Nat → Token
  | 0, _ => []
  | n + 1, i =>
      chars.getD (i / chars.length ^ n) default ::
        tokenOfIndex chars n (i % chars.length ^ n)

theorem list_eq_range_map {α : Type} (l : List α) (d : α) :
    l = (List.range l.length).map (fun i => l.getD i d) := by
  induction l with
  | nil => rfl
  | cons x xs ih =>
    simp only [List.length_cons, List.range_succ_eq_map, List.map_cons,
      List.map_map, List.getD_cons_zero]
    refine congrArg (x :: ·) ?_
    calc xs = (List.range xs.length).map (fun i => xs.getD i d) := ih
    _ = (List.range xs.length).map
          ((fun i => (x :: xs).getD i d) ∘ Nat.succ) := by
        refine List.map_congr_left fun a _ => ?_
        simp [List.getD_cons_succ]

theorem flatMap_eq_range_flatMap {α β : Type} (l : List α) (d : α)
    (g : α → List β) :
    l.flatMap g = (List.range l.length).flatMap (fun j => g (l.getD j d)) := by
  induction l with
  | nil => rfl
  | cons x xs ih =>
    simp only [List.length_cons, List.range_succ_eq_map, List.flatMap_cons,
      List.getD_cons_zero, List.flatMap_map]
    refine congrArg (g x ++ ·) ?_
    rw [ih]
    refine congrArg _ ?_
    funext j
    simp [List.getD_cons_succ]

theorem range_mul_map {α : Type} (f : Nat → α) (k m : Nat) :
    (List.range (k * m)).map f =
      (List.range k).flatMap fun j => (List.range m).map fun r => f (j * m + r) := by
  induction k with
  | zero => simp
  | succ k ih =>
    rw [Nat.succ_mul, List.range_add, List.map_append, ih, List.range_succ,
      List.flatMap_append, List.flatMap_singleton, List.map_map]
    rfl

/-- Combination-mode enumeration from intermediate state `cur` emits, in
order, `cur` extended by the width-`n` base-`|chars|` counter values
`0, 1, …, |chars|^n - 1`. -/
theorem generate_combinations_recursive_eq_range (chars : List Char) :
    ∀ (n : Nat) (cur : Token),
      generate_combinations_recursive chars cur n =
        (List.range (chars.length ^ n)).map
          (fun i => cur ++ tokenOfIndex chars n i) := by
  intro n
  induction n with
  | zero =>
    intro cur
    have h1 : List.range 1 = [0] := rfl
    simp [generate_combinations_recursive, tokenOfIndex, h1]
  | succ n ih =>
    intro cur
    by_cases hk : chars.length = 0
    · have hchars : chars = [] := List.length_eq_zero.mp hk
      subst hchars
      simp [generate_combinations_recursive, Nat.zero_pow]
    · have hpos : 0 < chars.length ^ n := pow_pos (Nat.pos_of_ne_zero hk) n
      calc generate_combinations_recursive chars cur (n + 1)
          = chars.flatMap (fun c =>
              generate_combinations_recursive chars (cur ++ [c]) n) := rfl
      _ = chars.flatMap (fun c => (List.range (chars.length ^ n)).map
              (fun i => (cur ++ [c]) ++ tokenOfIndex chars n i)) := by
            simp only [ih]
      _ = (List.range chars.length).flatMap (fun j =>
              (List.range (chars.length ^ n)).map
              (fun i => (cur ++ [chars.getD j default]) ++ tokenOfIndex chars n i)) :=
            flatMap_eq_range_flatMap chars default _
      _ = (List.range chars.length).flatMap (fun j =>
              (List.range (chars.length ^ n)).map
              (fun r => cur ++ tokenOfIndex chars (n + 1) (j * chars.length ^ n + r))) := by
            rw [List.flatMap_def, List.flatMap_def]
            refine congrArg List.flatten ?_
            refine List.map_congr_left fun j hj => ?_
            refine List.map_congr_left fun r hr => ?_
            rw [List.mem_range] at hj hr
            have hdiv : (j * chars.length ^ n + r) / chars.length ^ n = j := by
              rw [mul_comm j, Nat.mul_add_div hpos, Nat.div_eq_of_lt hr, Nat.add_zero]
            have hmod : (j * chars.length ^ n + r) % chars.length ^ n = r := by
              rw [mul_comm j, Nat.mul_add_mod, Nat.mod_eq_of_lt hr]
            simp only [tokenOfIndex, hdiv, hmod, List.append_assoc,
              List.singleton_append]
      _ = (List.range (chars.length * chars.length ^ n)).map
              (fun i => cur ++ tokenOfIndex chars (n + 1) i) :=
            (range_mul_map (fun i => cur ++ tokenOfIndex chars (n + 1) i)
              chars.length (chars.length ^ n)).symm
      _ = (List.range (chars.length ^ (n + 1))).map
              (fun i => cur ++ tokenOfIndex chars (n + 1) i) := by
            rw [pow_succ']

/-- C1: combination-mode enumeration produces exactly the length-L strings
over the charset in charset-order lexicographic order — the i-th emitted
token is the width-L base-`|charset|` counter value `i` (digits read
through the charset), starting at the all-first-character string; in
particular charset "ab" at length 2 yields exactly
["aa", "ab", "ba", "bb"] in that order. -/
theorem C1_combination_mode_is_base_k_counter :
    (∀ (chars : List Char) (L : Nat),
        generate_combinations_recursive chars [] L =
          (List.range (chars.length ^ L)).map (tokenOfIndex chars L)) ∧
      generate_combinations_recursive (str "ab") [] 2 =
        [str "aa", str "ab", str "ba", str "bb"] := by
  constructor
  · intro chars L
    have h := generate_combinations_recursive_eq_range chars L []
    simpa using h
  · decide

/-! ## Cardinalities of the enumeration (claim C2) -/

theorem getD_inj_of_nodup {chars : List Char} (hnd : chars.Nodup) {i j : Nat}
    (hi : i < chars.length) (hj : j < chars.length)
    (h : chars.getD i default = chars.getD j default) : i = j := by
  rw [List.getD_eq_getElem chars default hi,
    List.getD_eq_getElem chars default hj] at h
  exact hnd.getElem_inj_iff.mp h

theorem tokenOfIndex_inj (chars : List Char) (hnd : chars.Nodup) :
    ∀ (n : Nat) {i j : Nat}, i < chars.length ^ n → j < chars.length ^ n →
      tokenOfIndex chars n i = tokenOfIndex chars n j → i = j := by
  intro n
  induction n with
  | zero =>
    intro i j hi hj _
    simp only [pow_zero, Nat.lt_one_iff] at hi hj
    omega
  | succ n ih =>
    intro i j hi hj h
    have hkpos : 0 < chars.length := by
      rcases Nat.eq_zero_or_pos chars.length with h0 | h0
      · rw [h0, Nat.zero_pow (Nat.succ_pos n)] at hi
        exact absurd hi (Nat.not_lt_zero i)
      · exact h0
    have hpow : 0 < chars.length ^ n := pow_pos hkpos n
    simp only [tokenOfIndex, List.cons.injEq] at h
    obtain ⟨hhead, htail⟩ := h
    have hbound : ∀ {m : Nat}, m < chars.length ^ (n + 1) →
        m / chars.length ^ n < chars.length := by
      intro m hm
      rw [Nat.div_lt_iff_lt_mul hpow]
      calc m < chars.length ^ (n + 1) := hm
      _ = chars.length * chars.length ^ n := pow_succ' chars.length n
    have hdiv := getD_inj_of_nodup hnd (hbound hi) (hbound hj) hhead
    have hmod := ih (Nat.mod_lt i hpow) (Nat.mod_lt j hpow) htail
    calc i = chars.length ^ n * (i / chars.length ^ n) + i % chars.length ^ n :=
          (Nat.div_add_mod i (chars.length ^ n)).symm
    _ = chars.length ^ n * (j / chars.length ^ n) + j % chars.length ^ n := by
          rw [hdiv, hmod]
    _ = j := Nat.div_add_mod j (chars.length ^ n)

theorem generate_combinations_recursive_length (chars : List Char) (L : Nat) :
    (generate_combinations_recursive chars [] L).length = chars.length ^ L := by
  rw [generate_combinations_recursive_eq_range, List.length_map, List.length_range]

theorem generate_combinations_recursive_nodup (chars : List Char)
    (hnd : chars.Nodup) (L : Nat) :
    (generate_combinations_recursive chars [] L).Nodup := by
  rw [generate_combinations_recursive_eq_range]
  simp only [List.nil_append]
  refine List.Nodup.map_on ?_ (List.nodup_range _)
  intro x hx y hy hxy
  rw [List.mem_range] at hx hy
  exact tokenOfIndex_inj chars hnd L hx hy hxy

theorem list_range_map_sum (f : Nat → Nat) (k : Nat) :
    ((List.range k).map f).sum = ∑ i ∈ Finset.range k, f i := by
  induction k with
  | zero => simp
  | succ k ih =>
      rw [List.range_succ, List.map_append, List.sum_append,
        Finset.sum_range_succ, ih]
      simp

theorem sum_map_ite_mem (k d : Nat) (used : List Nat) (hnd : used.Nodup)
    (hmem : ∀ i ∈ used, i < k) :
    ((List.range k).map (fun i => if i ∈ used then 0 else d)).sum
      = (k - used.length) * d := by
  rw [list_range_map_sum]
  rw [← Finset.sum_filter_add_sum_filter_not (Finset.range k) (· ∈ used)]
  have h1 : ∑ i ∈ (Finset.range k).filter (· ∈ used),
      (if i ∈ used then 0 else d) = 0 :=
    Finset.sum_eq_zero fun i hi => if_pos (Finset.mem_filter.mp hi).2
  have h2 : ∑ i ∈ (Finset.range k).filter (fun i => ¬(i ∈ used)),
      (if i ∈ used then 0 else d)
      = ((Finset.range k).filter (fun i => ¬(i ∈ used))).card * d := by
    rw [Finset.sum_congr rfl fun i hi => if_neg (Finset.mem_filter.mp hi).2]
    rw [Finset.sum_const, smul_eq_mul]
  have hcard : ((Finset.range k).filter (fun i => i ∈ used)).card = used.length := by
    have hset : (Finset.range k).filter (fun i => i ∈ used) = used.toFinset := by
      ext i
      simp only [Finset.mem_filter, Finset.mem_range, List.mem_toFinset]
      exact ⟨fun h => h.2, fun h => ⟨hmem i h, h⟩⟩
    rw [hset, List.toFinset_card_of_nodup hnd]
  have hsplit := Finset.filter_card_add_filter_neg_card_eq_card
    (s := Finset.range k) (fun i => i ∈ used)
  rw [Finset.card_range] at hsplit
  have hneg : ((Finset.range k).filter (fun i => ¬(i ∈ used))).card
      = k - used.length := by omega
  rw [h1, h2, hneg, Nat.zero_add]

theorem descFactorial_step (m n : Nat) :
    m * ((m - 1).descFactorial n) = m.descFactorial (n + 1) := by
  cases m with
  | zero => simp [Nat.zero_descFactorial_succ]
  | succ m => rw [Nat.succ_descFactorial_succ, Nat.succ_sub_one]

theorem permute_helper_length (chars : List Char) :
    ∀ (n : Nat) (used : List Nat) (cur : Token), used.Nodup →
      (∀ i ∈ used, i < chars.length) →
      (permute_helper chars cur used n).length =
        (chars.length - used.length).descFactorial n := by
  intro n
  induction n with
  | zero =>
    intro used cur _ _
    simp [permute_helper, Nat.descFactorial_zero]
  | succ n ih =>
    intro used cur hnd hmem
    have hstep : ∀ i ∈ List.range chars.length,
        (List.length ∘ fun i => if i ∈ used then []
            else permute_helper chars (cur ++ [chars.getD i default]) (i :: used) n) i
          = if i ∈ used then 0
            else (chars.length - (used.length + 1)).descFactorial n := by
      intro i hi
      rw [List.mem_range] at hi
      by_cases hiu : i ∈ used
      · simp [hiu]
      · simp only [Function.comp_apply, if_neg hiu]
        rw [ih (i :: used) _ (List.nodup_cons.mpr ⟨hiu, hnd⟩) ?_]
        · simp
        · intro j hj
          rcases List.mem_cons.mp hj with h | h
          · rw [h]; exact hi
          · exact hmem j h
    calc (permute_helper chars cur used (n + 1)).length
        = ((List.range chars.length).map (List.length ∘ fun i =>
            if i ∈ used then []
            else permute_helper chars (cur ++ [chars.getD i default])
              (i :: used) n)).sum :=
          List.length_flatMap _ _
    _ = ((List.range chars.length).map (fun i => if i ∈ used then 0
          else (chars.length - (used.length + 1)).descFactorial n)).sum := by
          rw [List.map_congr_left hstep]
    _ = (chars.length - used.length) *
          ((chars.length - (used.length + 1)).descFactorial n) :=
          sum_map_ite_mem chars.length _ used hnd hmem
    _ = (chars.length - used.length).descFactorial (n + 1) := by
          have harr : chars.length - (used.length + 1)
              = (chars.length - used.length) - 1 := by omega
          rw [harr, descFactorial_step]

theorem permute_helper_shape (chars : List Char) :
    ∀ (n : Nat) (used : List Nat) (cur : Token) (w : Token),
      w ∈ permute_helper chars cur used n → ∃ rest, w = cur ++ rest := by
  intro n
  induction n with
  | zero =>
    intro used cur w hw
    simp only [permute_helper, List.mem_singleton] at hw
    exact ⟨[], by simp [hw]⟩
  | succ n ih =>
    intro used cur w hw
    simp only [permute_helper, List.mem_flatMap, List.mem_range] at hw
    obtain ⟨i, _, hw⟩ := hw
    by_cases hiu : i ∈ used
    · rw [if_pos hiu] at hw
      exact absurd hw (List.not_mem_nil w)
    · rw [if_neg hiu] at hw
      obtain ⟨rest, hrest⟩ := ih _ _ _ hw
      refine ⟨chars.getD i default :: rest, ?_⟩
      rw [hrest, List.append_assoc, List.singleton_append]

theorem permute_helper_nodup (chars : List Char) (hnd : chars.Nodup) :
    ∀ (n : Nat) (used : List Nat) (cur : Token),
      (permute_helper chars cur used n).Nodup := by
  intro n
  induction n with
  | zero =>
    intro used cur
    simp [permute_helper]
  | succ n ih =>
    intro used cur
    rw [permute_helper, List.nodup_flatMap]
    constructor
    · intro i _
      by_cases hiu : i ∈ used
      · simp [hiu]
      · rw [if_neg hiu]
        exact ih _ _
    · refine (List.pairwise_lt_range chars.length).imp_of_mem ?_
      intro a b ha hb hab
      rw [List.mem_range] at ha hb
      intro w hwa hwb
      simp only [] at hwa hwb
      by_cases hau : a ∈ used
      · rw [if_pos hau] at hwa
        exact absurd hwa (List.not_mem_nil w)
      by_cases hbu : b ∈ used
      · rw [if_pos hbu] at hwb
        exact absurd hwb (List.not_mem_nil w)
      rw [if_neg hau] at hwa
      rw [if_neg hbu] at hwb
      obtain ⟨ra, hra⟩ := permute_helper_shape chars n _ _ w hwa
      obtain ⟨rb, hrb⟩ := permute_helper_shape chars n _ _ w hwb
      rw [List.append_assoc, List.singleton_append] at hra hrb
      rw [hra] at hrb
      have hcons := List.append_cancel_left hrb
      have hhead : chars.getD a default = chars.getD b default :=
        (List.cons.injEq _ _ _ _).mp hcons |>.1
      exact absurd (getD_inj_of_nodup hnd ha hb hhead) (Nat.ne_of_lt hab)

/-- C2: for a charset of `k` distinct characters, the enumerator emits a
duplicate-free batch of exactly `k ^ L` tokens in combination mode and
exactly `k! / (k - L)!` tokens in permutation mode for `L ≤ k`, and the
empty batch (not an error) in permutation mode when `L > k`. -/
theorem C2_enumeration_cardinalities (chars : List Char) (hnd : chars.Nodup)
    (L : Nat) :
    ((generate_combinations_recursive chars [] L).length = chars.length ^ L
      ∧ (generate_combinations_recursive chars [] L).Nodup)
    ∧ (L ≤ chars.length →
        (generate_permutations chars L).length =
            chars.length.factorial / (chars.length - L).factorial
          ∧ (generate_permutations chars L).Nodup)
    ∧ (chars.length < L → generate_permutations chars L = []) := by
  refine ⟨⟨generate_combinations_recursive_length chars L,
    generate_combinations_recursive_nodup chars hnd L⟩, fun hle => ?_, fun hlt => ?_⟩
  · have hif : generate_permutations chars L = permute_helper chars [] [] L := by
      rw [generate_permutations, if_neg (Nat.not_lt.mpr hle)]
    constructor
    · rw [hif, permute_helper_length chars L [] [] List.nodup_nil
        (by intro i hi; exact absurd hi (List.not_mem_nil i))]
      simp only [List.length_nil, Nat.sub_zero]
      exact Nat.descFactorial_eq_div hle
    · rw [hif]
      exact permute_helper_nodup chars hnd L [] []
  · rw [generate_permutations, if_pos hlt]

/-- Closed instance of `C2_enumeration_cardinalities` at charset "abc":
4 combinations of length 2 over "ab", 6 permutations of length 2 over
"abc", empty permutation batch for length 4 over "abc". -/
theorem C2_enumeration_cardinalities_witness :
    ((generate_combinations_recursive (str "ab") [] 2).length =
        (str "ab").length ^ 2
      ∧ (generate_combinations_recursive (str "ab") [] 2).Nodup)
    ∧ ((generate_permutations (str "abc") 2).length =
        (str "abc").length.factorial / ((str "abc").length - 2).factorial
      ∧ (generate_permutations (str "abc") 2).Nodup)
    ∧ generate_permutations (str "abc") 4 = [] := by
  refine ⟨(C2_enumeration_cardinalities (str "ab") (by decide) 2).1, ?_, ?_⟩
  · exact (C2_enumeration_cardinalities (str "abc") (by decide) 2).2.1 (by decide)
  · exact (C2_enumeration_cardinalities (str "abc") (by decide) 4).2.2 (by decide)

/-! ## Order inversion (claim C3) -/

/-- A validated two-length configuration over charset "ab", used to exhibit
the batch-wise behaviour of the invert flag. -/
def invertDemoConfig : Config :=
  { Config.default with min_length := 1, max_length := 2, charset := some (str "ab") }

/-- C3 counterexample: for the validated config with `min_length = 1`,
`max_length = 2`, charset "ab", the inverted run emits
[b, a, bb, ba, ab, aa] — each per-length batch reversed — which is not the
reverse [bb, ba, ab, aa, b, a] of the non-inverted run [a, b, aa, ab, ba, bb]. -/
theorem C3_invert_counterexample :
    invertDemoConfig.validate = true
    ∧ invertDemoConfig.invert = false
    ∧ generate_charset { invertDemoConfig with invert := true } ≠
        (generate_charset invertDemoConfig).reverse := by
  decide

/-- C3 amended: the invert flag reverses each per-length batch produced by
`generate_combinations`, and consequently a whole run is reversed whenever
it consists of a single length batch (`min_length = max_length`) and no
`max_lines` cutoff applies; multi-length runs concatenate the reversed
batches in ascending length order instead of reversing the whole output. -/
theorem C3_invert_reverses_each_batch :
    (∀ (c : Config) (charset : List Char) (length : Nat)
        (start end_ : Option Token),
        generate_combinations { c with invert := true } charset length start end_ =
          (generate_combinations { c with invert := false } charset length
            start end_).reverse)
    ∧ (∀ (c : Config) (charset : List Char), c.max_lines = none →
        c.min_length = c.max_length →
        generate_from_charset { c with invert := true } charset =
          (generate_from_charset { c with invert := false } charset).reverse) := by
  have hbatch : ∀ (c : Config) (charset : List Char) (length : Nat)
      (start end_ : Option Token),
      generate_combinations { c with invert := true } charset length start end_ =
        (generate_combinations { c with invert := false } charset length
          start end_).reverse := by
    intro c charset length start end_
    rfl
  refine ⟨hbatch, fun c charset hml hlen => ?_⟩
  rw [generate_from_charset, generate_from_charset]
  have hcount : c.max_length + 1 - c.min_length = 1 := by omega
  simp only [hcount, generate_loop, hml, List.nil_append]
  exact hbatch c charset c.min_length c.start_string c.end_string

/-- A validated single-length configuration over charset "ab". -/
def singleLenConfig : Config :=
  { Config.default with min_length := 2, max_length := 2, charset := some (str "ab") }

/-- Closed instance of `C3_invert_reverses_each_batch` at a single-length
config over charset "ab". -/
theorem C3_invert_reverses_each_batch_witness :
    generate_from_charset { singleLenConfig with invert := true } (str "ab") =
      (generate_from_charset { singleLenConfig with invert := false }
        (str "ab")).reverse :=
  C3_invert_reverses_each_batch.2 singleLenConfig (str "ab") rfl rfl

/-! ## Duplicate-adjacent-character suppression (claim C4) -/

/-- Spec-side reading of the duplicate limit: the token contains a run of
`limit + 1` identical adjacent characters, i.e. `replicate (limit + 1) c`
occurs contiguously inside it. -/
def hasOverrun (limit : Nat) (l : List Char) : Prop :=
  ∃ (c : Char) (pre post : List Char),
    l = pre ++ List.replicate (limit + 1) c ++ post

theorem overrun_replicate_iff {limit count : Nat} {prev : Char} :
    hasOverrun limit (List.replicate count prev) ↔ limit + 1 ≤ count := by
  constructor
  · rintro ⟨d, pre, post, heq⟩
    have hlen := congrArg List.length heq
    simp only [List.length_replicate, List.length_append] at hlen
    omega
  · intro hle
    refine ⟨prev, [], List.replicate (count - (limit + 1)) prev, ?_⟩
    rw [List.nil_append, ← List.replicate_add]
    congr 1
    omega

theorem overrun_cons_of_ne {limit count : Nat} {prev c : Char} {tl : List Char}
    (hne : c ≠ prev) (hcount : count ≤ limit) :
    hasOverrun limit (List.replicate count prev ++ c :: tl) ↔
      hasOverrun limit (c :: tl) := by
  constructor
  · rintro ⟨d, pre, post, heq⟩
    rw [List.append_assoc] at heq
    rcases List.append_eq_append_iff.mp heq with ⟨a', ha1, ha2⟩ | ⟨c', hc1, hc2⟩
    · rw [← List.append_assoc] at ha2
      exact ⟨d, a', post, ha2⟩
    · have hmem : ∀ x ∈ c', x = prev := by
        intro x hx
        have hxin : x ∈ List.replicate count prev := by
          rw [hc1]
          exact List.mem_append_right pre hx
        exact List.eq_of_mem_replicate hxin
      have hc'rep : c' = List.replicate c'.length prev :=
        List.eq_replicate_iff.mpr ⟨rfl, hmem⟩
      have hmle : c'.length ≤ count := by
        have hlen := congrArg List.length hc1
        simp only [List.length_replicate, List.length_append] at hlen
        omega
      rw [hc'rep] at hc2
      rcases List.append_eq_append_iff.mp hc2 with ⟨a', ha1, _⟩ | ⟨c'', hcc1, hcc2⟩
      · have hlen := congrArg List.length ha1
        simp only [List.length_replicate, List.length_append] at hlen
        omega
      · rcases Nat.eq_zero_or_pos c'.length with hm0 | hmpos
        · rw [hm0, List.replicate_zero, List.nil_append] at hcc1
          refine ⟨d, [], post, ?_⟩
          rw [List.nil_append, hcc2, ← hcc1]
        · exfalso
          have hprevd : prev = d := by
            have hpin : prev ∈ List.replicate (limit + 1) d := by
              rw [hcc1]
              exact List.mem_append_left c''
                (List.mem_replicate.mpr ⟨by omega, rfl⟩)
            exact List.eq_of_mem_replicate hpin
          have hcd : c = d := by
            cases hcc : c'' with
            | nil =>
              exfalso
              have hlen := congrArg List.length hcc1
              rw [hcc] at hlen
              simp only [List.length_replicate, List.length_append,
                List.length_nil] at hlen
              omega
            | cons e es =>
              rw [hcc] at hcc2
              have hce : c = e := by
                simpa using congrArg (fun l => l.headD c) hcc2
              have hein : e ∈ List.replicate (limit + 1) d := by
                rw [hcc1, hcc]
                exact List.mem_append_right _ (List.mem_cons_self e es)
              rw [hce]
              exact List.eq_of_mem_replicate hein
          exact hne (hcd.trans hprevd.symm)
  · rintro ⟨d, pre, post, heq⟩
    refine ⟨d, List.replicate count prev ++ pre, post, ?_⟩
    rw [heq]
    simp [List.append_assoc]

theorem dupLoop_iff (limit : Nat) :
    ∀ (rest : List Char) (count : Nat) (prev : Char),
      1 ≤ count → count ≤ limit →
      (dupLoop limit count prev rest = true ↔
        ¬ hasOverrun limit (List.replicate count prev ++ rest)) := by
  intro rest
  induction rest with
  | nil =>
    intro count prev h1 h2
    simp only [dupLoop, List.append_nil]
    constructor
    · intro _ hov
      have := overrun_replicate_iff.mp hov
      omega
    · intro _
      trivial
  | cons c tl ih =>
    intro count prev h1 h2
    by_cases hc : c = prev
    · subst hc
      have hunf : dupLoop limit count c (c :: tl)
          = if limit < count + 1 then false
            else dupLoop limit (count + 1) c tl := by
        simp [dupLoop]
      rw [hunf]
      by_cases hover : limit < count + 1
      · rw [if_pos hover]
        have hcnt : count = limit := by omega
        constructor
        · intro h
          exact absurd h (by simp)
        · intro hno
          exfalso
          apply hno
          refine ⟨c, [], tl, ?_⟩
          rw [List.nil_append, hcnt, List.replicate_succ', List.append_assoc,
            List.singleton_append]
      · rw [if_neg hover]
        rw [ih (count + 1) c (by omega) (by omega)]
        have hlist : List.replicate (count + 1) c ++ tl =
            List.replicate count c ++ c :: tl := by
          rw [List.replicate_succ', List.append_assoc, List.singleton_append]
        rw [hlist]
    · have hunf : dupLoop limit count prev (c :: tl) = dupLoop limit 1 c tl := by
        simp [dupLoop, hc]
      rw [hunf]
      rw [ih 1 c (le_refl 1) (by omega)]
      have hone : List.replicate 1 c ++ tl = c :: tl := by
        simp
      rw [hone, overrun_cons_of_ne hc h2]

/-- A validated config whose prefix turns the accepted bare token "a" into
the decorated token "aa" that the limit-1 duplicate check rejects. -/
def dupDemoConfig : Config :=
  { Config.default with
      min_length := 1
      max_length := 1
      charset := some (str "a")
      pfx := some (str "a")
      duplicate_limit := some (str "1") }

/-- C4 counterexample: the undecorated token "a" passes the limit-1 check,
yet the run with prefix "a" and duplicate limit "1" emits nothing, because
the code applies suppression to the decorated token "aa"
(src/generator.rs:138-152), not to the undecorated token as claimed. -/
theorem C4_duplicate_limit_counterexample :
    check_duplicate_limit (str "a") (str "1") = true
    ∧ check_duplicate_limit (str "aa") (str "1") = false
    ∧ dupDemoConfig.validate = true
    ∧ generate_charset dupDemoConfig = [] := by
  decide

/-- C4 amended: the limit specifier is parsed as its leading digit run
(default 1 when absent or unparsable); for any positive parsed limit a
token passes the check exactly when it contains no run of `limit + 1`
identical adjacent characters; limit 1 rejects "aab" and accepts "aba";
and the suppression stage filters the decorated batch — the tokens with
prefix and suffix already attached — rather than the undecorated tokens. -/
theorem C4_duplicate_limit_semantics :
    (∀ (spec : List Char) (token : Token), 1 ≤ parse_duplicate_limit spec →
      (check_duplicate_limit token spec = true ↔
        ¬ hasOverrun (parse_duplicate_limit spec) token))
    ∧ parse_duplicate_limit (str "@") = 1
    ∧ parse_duplicate_limit (str "2@") = 2
    ∧ parse_duplicate_limit (str "") = 1
    ∧ check_duplicate_limit (str "aab") (str "1") = false
    ∧ check_duplicate_limit (str "aba") (str "1") = true
    ∧ (∀ (c : Config) (spec charset : List Char) (length : Nat)
        (start end_ : Option Token), c.duplicate_limit = some spec →
        generate_combinations c charset length start end_ =
          (generate_combinations { c with duplicate_limit := none } charset
            length start end_).filter
            (fun t => check_duplicate_limit t spec)) := by
  refine ⟨?_, by decide, by decide, by decide, by decide, by decide, ?_⟩
  · intro spec token hlim
    cases token with
    | nil =>
      simp only [check_duplicate_limit]
      constructor
      · rintro _ ⟨d, pre, post, heq⟩
        have hlen := congrArg List.length heq
        simp only [List.length_nil, List.length_append,
          List.length_replicate] at hlen
        omega
      · intro _
        trivial
    | cons ch rest =>
      have hch : check_duplicate_limit (ch :: rest) spec
          = dupLoop (parse_duplicate_limit spec) 1 ch rest := rfl
      rw [hch, dupLoop_iff _ rest 1 ch (le_refl 1) hlim]
      have hone : List.replicate 1 ch ++ rest = ch :: rest := by simp
      rw [hone]
  · intro c spec charset length start end_ hdup
    have hfilt : ∀ (cc : Config) (X : List Token), cc.invert = c.invert →
        invert_tokens c (X.filter (fun t => check_duplicate_limit t spec))
          = (invert_tokens cc X).filter
              (fun t => check_duplicate_limit t spec) := by
      intro cc X hinv
      rw [invert_tokens, invert_tokens, hinv]
      cases c.invert
      · simp
      · simp [List.filter_reverse]
    simp only [generate_combinations, apply_duplicate_suppression, hdup]
    exact hfilt _ _ rfl

/-- Closed instance of `C4_duplicate_limit_semantics`: the limit-1 overrun
characterization at "aab" and the post-decoration filtering equation at the
prefix config. -/
theorem C4_duplicate_limit_semantics_witness :
    (check_duplicate_limit (str "aab") (str "1") = true ↔
      ¬ hasOverrun (parse_duplicate_limit (str "1")) (str "aab"))
    ∧ generate_combinations dupDemoConfig (str "a") 1 none none =
        (generate_combinations { dupDemoConfig with duplicate_limit := none }
          (str "a") 1 none none).filter
          (fun t => check_duplicate_limit t (str "1")) := by
  constructor
  · exact C4_duplicate_limit_semantics.1 (str "1") (str "aab") (by decide)
  · exact C4_duplicate_limit_semantics.2.2.2.2.2.2 dupDemoConfig (str "1")
      (str "a") 1 none none (by decide)

/-! ## Pattern expansion (claim C5) -/

/-- C5 counterexample: pattern expansion performs no deduplication — the
pattern "aa" with no literal set expands to the duplicated charset "aa",
not to the deduplicated "a" (dedup happens only in
`CharsetBuilder::build`, src/charset.rs:130, which `generate_pattern`
never invokes on the expansion). -/
theorem C5_expand_pattern_counterexample :
    expand_pattern (str "aa") none = str "aa"
    ∧ ¬ (expand_pattern (str "aa") none).Nodup := by
  decide

/-- C5 amended: pattern expansion is a per-character concatenation with no
deduplication: a literal-set character is emitted verbatim (the literal set
wins over the marker table), each recognized marker appends its entire
preset, an unrecognized character is emitted as a literal, and expansion
distributes over pattern concatenation (so duplicate emissions are kept). -/
theorem C5_expand_pattern_semantics :
    (∀ (p1 p2 : List Char) (lits : Option (List Char)),
        expand_pattern (p1 ++ p2) lits =
          expand_pattern p1 lits ++ expand_pattern p2 lits)
    ∧ expand_pattern (str "@") none = str "abcdefghijklmnopqrstuvwxyz"
    ∧ expand_pattern (str "%") none = str "0123456789"
    ∧ expand_pattern (str "^") none = str "!@#$%^&*()_+-=[]\x7b\x7d|;:,.<>?"
    ∧ expand_pattern (str ",") none = str "ABCDEFGHIJKLMNOPQRSTUVWXYZ"
    ∧ expand_pattern (str "?") none =
        str "abcdefghijklmnopqrstuvwxyzABCDEFGHIJKLMNOPQRSTUVWXYZ0123456789"
    ∧ expand_pattern (str "!") none =
        str "abcdefghijklmnopqrstuvwxyzABCDEFGHIJKLMNOPQRSTUVWXYZ0123456789!@#$%^&*()_+-=[]\x7b\x7d|;:,.<>? "
    ∧ expand_pattern (str "@") (some (str "@")) = str "@"
    ∧ expand_pattern (str "q%") none = str "q0123456789" := by
  refine ⟨?_, by decide, by decide, by decide, by decide, by decide,
    by decide, by decide, by decide⟩
  intro p1 p2 lits
  simp [expand_pattern, List.flatMap_append]

/-! ## Range bounding (claim C6) -/

theorem dropWhile_lt_sorted (s : Token) :
    ∀ (ts : List Token), List.Pairwise (fun a b => lexLe a b = true) ts →
      ts.dropWhile (fun t => lexLt t s) = ts.filter (fun t => lexLe s t) := by
  intro ts
  induction ts with
  | nil => intro _; rfl
  | cons a l ih =>
    intro hp
    rcases List.pairwise_cons.mp hp with ⟨ha, hl⟩
    by_cases hlt : lexLt a s = true
    · rw [List.dropWhile_cons, if_pos hlt, ih hl, List.filter_cons,
        if_neg (by simp [lexLe, hlt])]
    · rw [List.dropWhile_cons, if_neg (by simp [hlt])]
      have hsa : lexLe s a = true :=
        lexLe_of_not_lexLt (Bool.not_eq_true _ ▸ hlt)
      rw [List.filter_cons, if_pos hsa]
      refine congrArg (a :: ·) ?_
      exact (List.filter_eq_self.mpr fun b hb =>
        lexLe_trans hsa (ha b hb)).symm

theorem takeWhile_le_sorted (e : Token) :
    ∀ (ts : List Token), List.Pairwise (fun a b => lexLe a b = true) ts →
      ts.takeWhile (fun t => lexLe t e) = ts.filter (fun t => lexLe t e) := by
  intro ts
  induction ts with
  | nil => intro _; rfl
  | cons a l ih =>
    intro hp
    rcases List.pairwise_cons.mp hp with ⟨ha, hl⟩
    by_cases hae : lexLe a e = true
    · rw [List.takeWhile_cons, if_pos hae, List.filter_cons, if_pos hae, ih hl]
    · rw [List.takeWhile_cons, if_neg (by simp [hae]), List.filter_cons,
        if_neg (by simp [hae])]
      refine (List.filter_eq_nil_iff.mpr fun b hb => ?_).symm
      intro hbe
      exact hae (lexLe_trans (ha b hb) hbe)

/-- C6: on an ascending-ordered token stream, range bounding keeps exactly
the inclusive interval [start, end] — it drops the leading tokens strictly
below start and cuts at the first token strictly above end, for arbitrary
start/end strings (valid tokens or not) without error; concretely, bounding
the length-2 combination output of "ab" by start "ba", end "bb" yields
["ba", "bb"]. -/
theorem C6_range_bound_inclusive_interval :
    (∀ (ts : List Token) (s e : Token),
        List.Pairwise (fun a b => lexLe a b = true) ts →
        range_bound (some s) (some e) ts =
          ts.filter (fun t => lexLe s t && lexLe t e))
    ∧ generate_combinations Config.default (str "ab") 2 (some (str "ba"))
        (some (str "bb")) = [str "ba", str "bb"] := by
  constructor
  · intro ts s e hp
    have h1 : range_bound (some s) (some e) ts =
        ((ts.dropWhile (fun t => lexLt t s)).takeWhile (fun t => lexLe t e)) := rfl
    rw [h1, dropWhile_lt_sorted s ts hp,
      takeWhile_le_sorted e _ (hp.filter _), List.filter_filter]
    refine List.filter_congr fun t _ => ?_
    exact Bool.and_comm _ _
  · decide

/-- Closed instance of `C6_range_bound_inclusive_interval` on the sorted
length-2 batch over "ab" with start "ba" and end "bb". -/
theorem C6_range_bound_inclusive_interval_witness :
    range_bound (some (str "ba")) (some (str "bb"))
        [str "aa", str "ab", str "ba", str "bb"] =
      ([str "aa", str "ab", str "ba", str "bb"]).filter
        (fun t => lexLe (str "ba") t && lexLe t (str "bb")) :=
  C6_range_bound_inclusive_interval.1
    [str "aa", str "ab", str "ba", str "bb"] (str "ba") (str "bb")
    (by decide)

/-! ## Shannon entropy values (claim C7) -/

theorem dedup_replicate (n : Nat) (c : Char) (h : 1 ≤ n) :
    (List.replicate n c).dedup = [c] := by
  induction n with
  | zero => omega
  | succ n ih =>
    cases n with
    | zero => rfl
    | succ m =>
      rw [List.replicate_succ,
        List.dedup_cons_of_mem (by simp [List.mem_replicate])]
      exact ih (by omega)

theorem log2_one_div_four : log2 ((1 : ℝ) / 4) = -2 := by
  have h2 : Real.log 2 ≠ 0 :=
    Real.log_ne_zero_of_pos_of_ne_one (by norm_num) (by norm_num)
  rw [log2, one_div, Real.log_inv]
  have h4 : (4 : ℝ) = 2 ^ 2 := by norm_num
  rw [h4, Real.log_pow]
  push_cast
  rw [neg_div, mul_div_assoc, div_self h2, mul_one]

/-- C7: the entropy used by the filters is the Shannon entropy of the
per-character frequency distribution in bits per character: it equals
`-(∑ over distinct characters of p * log2 p)` with `p = count / length`,
is 0 on the empty string and on every one-symbol string (such as "aaaa"),
and is exactly 2 on every 4-character string with 4 distinct characters. -/
theorem C7_shannon_entropy :
    calculate_entropy [] = 0
    ∧ (∀ (n : Nat) (c : Char), 1 ≤ n →
        calculate_entropy (List.replicate n c) = 0)
    ∧ (∀ (s : List Char), s.length = 4 → s.Nodup → calculate_entropy s = 2)
    ∧ (∀ (s : List Char), s ≠ [] →
        calculate_entropy s =
          -(∑ c ∈ s.toFinset,
            ((s.count c : ℝ) / (s.length : ℝ)) *
              log2 ((s.count c : ℝ) / (s.length : ℝ)))) := by
  refine ⟨by simp [calculate_entropy], ?_, ?_, ?_⟩
  · intro n c h
    have hne : ¬((List.replicate n c).length = 0) := by
      simp only [List.length_replicate]
      omega
    have hn0 : ((n : ℕ) : ℝ) ≠ 0 := Nat.cast_ne_zero.mpr (by omega)
    simp only [calculate_entropy, hne, if_false, dedup_replicate n c h,
      List.length_replicate, List.count_replicate_self, List.map_cons,
      List.map_nil, List.sum_cons, List.sum_nil, div_self hn0]
    simp [log2, Real.log_one]
  · intro s hlen hnd
    have hne : ¬(s.length = 0) := by omega
    have hpt : ∀ c ∈ s, ((s.count c : ℝ) / ((s.length : ℕ) : ℝ)) *
        log2 ((s.count c : ℝ) / ((s.length : ℕ) : ℝ))
          = (1 / 4 : ℝ) * log2 (1 / 4) := by
      intro c hc
      rw [List.count_eq_one_of_mem hnd hc, hlen]
      norm_num
    simp only [calculate_entropy, hne, if_false, List.Nodup.dedup hnd]
    rw [List.map_congr_left hpt, List.map_const', List.sum_replicate, hlen,
      log2_one_div_four, nsmul_eq_mul]
    norm_num
  · intro s hs
    have hne : ¬(s.length = 0) := by
      simp [List.length_eq_zero, hs]
    have hnodup := List.nodup_dedup s
    have htof : s.dedup.toFinset = s.toFinset := by
      ext c
      simp [List.mem_toFinset, List.mem_dedup]
    rw [← htof, List.sum_toFinset _ hnodup]
    simp only [calculate_entropy, hne, if_false]
    rw [zero_sub]

/-- Closed instance of `C7_shannon_entropy`: entropy 0 for "aaaa"
(four repeats of one character), entropy 2 for the 4-distinct-character
token "abcd", and the distribution formula at "ab". -/
theorem C7_shannon_entropy_witness :
    calculate_entropy (List.replicate 4 'a') = 0
    ∧ calculate_entropy (str "abcd") = 2
    ∧ calculate_entropy (str "ab") =
        -(∑ c ∈ (str "ab").toFinset,
          (((str "ab").count c : ℝ) / ((str "ab").length : ℝ)) *
            log2 (((str "ab").count c : ℝ) / ((str "ab").length : ℝ))) := by
  refine ⟨C7_shannon_entropy.2.1 4 'a' (by norm_num),
    C7_shannon_entropy.2.2.1 (str "abcd") (by decide) (by decide),
    C7_shannon_entropy.2.2.2 (str "ab") (by decide)⟩

/-! ## Transform registry behaviour (claim C8) -/

/-- The eleven names of the fixed transform registry
(`Generator::parse_transform`, src/generator.rs:263). -/
def knownTransformNames : List (List Char) :=
  [str "leet_basic", str "leet_full", str "leet_random", str "reverse",
   str "toggle_case", str "upper", str "lower", str "capitalize",
   str "homoglyph", str "emoji", str "keyboard_shift"]

theorem parse_transform_unknown (name : List Char)
    (h : name ∉ knownTransformNames) :
    parse_transform name =
      .error (.TransformError (str "Unknown transform: " ++ name)) := by
  simp only [knownTransformNames, List.mem_cons, List.not_mem_nil, or_false,
    not_or] at h
  obtain ⟨h1, h2, h3, h4, h5, h6, h7, h8, h9, h10, h11⟩ := h
  rw [parse_transform, if_neg h1, if_neg h2, if_neg h3, if_neg h4, if_neg h5,
    if_neg h6, if_neg h7, if_neg h8, if_neg h9, if_neg h10, if_neg h11]

theorem parse_transform_ok_iff (name : List Char) :
    (∃ t, parse_transform name = .ok t) ↔ name ∈ knownTransformNames := by
  constructor
  · intro h
    by_contra hn
    rw [parse_transform_unknown name hn] at h
    obtain ⟨t, ht⟩ := h
    exact Except.noConfusion ht
  · intro h
    fin_cases h
    · exact ⟨.LeetBasic, rfl⟩
    · exact ⟨.LeetFull, rfl⟩
    · exact ⟨.LeetRandom, rfl⟩
    · exact ⟨.Reverse, rfl⟩
    · exact ⟨.ToggleCase, rfl⟩
    · exact ⟨.UpperCase, rfl⟩
    · exact ⟨.LowerCase, rfl⟩
    · exact ⟨.Capitalize, rfl⟩
    · exact ⟨.Homoglyph, rfl⟩
    · exact ⟨.EmojiInsertion, rfl⟩
    · exact ⟨.KeyboardShift, rfl⟩

theorem applyTransform_ok (pick : List (List Char) → Option (List Char))
    (t : Transform) (token : Token) :
    ∃ r, applyTransform pick t token = .ok r := by
  cases t <;> exact ⟨_, rfl⟩

theorem pipeline_apply_ok (pick : List (List Char) → Option (List Char)) :
    ∀ (ts : List Transform) (token : Token),
      ∃ r, pipeline_apply pick ts token = .ok r := by
  intro ts
  induction ts with
  | nil => exact fun token => ⟨token, rfl⟩
  | cons tr rest ih =>
    intro token
    obtain ⟨r, hr⟩ := applyTransform_ok pick tr token
    obtain ⟨r2, hr2⟩ := ih r
    exact ⟨r2, by simp [pipeline_apply, hr, hr2, except_bind_ok]⟩

theorem mapExcept_ok {α β : Type} (f : α → Except Error β) :
    ∀ (l : List α), (∀ a ∈ l, ∃ b, f a = .ok b) →
      ∃ bs, mapExcept f l = .ok bs := by
  intro l
  induction l with
  | nil => exact fun _ => ⟨[], rfl⟩
  | cons x xs ih =>
    intro h
    obtain ⟨b, hb⟩ := h x (List.mem_cons_self x xs)
    obtain ⟨bs, hbs⟩ := ih fun a ha => h a (List.mem_cons_of_mem x ha)
    exact ⟨b :: bs, by simp [mapExcept, hb, hbs, except_bind_ok]⟩

theorem mapExcept_parse_error :
    ∀ (l : List (List Char)), (∃ a ∈ l, a ∉ knownTransformNames) →
      ∃ msg, mapExcept parse_transform l =
        Except.error (.TransformError msg) := by
  intro l
  induction l with
  | nil =>
    rintro ⟨a, ha, _⟩
    exact absurd ha (List.not_mem_nil a)
  | cons x xs ih =>
    intro h
    by_cases hx : x ∈ knownTransformNames
    · obtain ⟨t, ht⟩ := (parse_transform_ok_iff x).mpr hx
      have h' : ∃ a ∈ xs, a ∉ knownTransformNames := by
        rcases h with ⟨a, ha, hna⟩
        rcases List.mem_cons.mp ha with heq | hmem
        · rw [heq] at hna
          exact absurd hx hna
        · exact ⟨a, hmem, hna⟩
      obtain ⟨msg, hmsg⟩ := ih h'
      exact ⟨msg, by simp [mapExcept, ht, hmsg, except_bind_ok,
        except_bind_error]⟩
    · exact ⟨str "Unknown transform: " ++ x, by
        simp [mapExcept, parse_transform_unknown x hx, except_bind_error]⟩

/-- C8: a transform list containing any name outside the fixed registry
makes the whole pipeline fail with a `TransformError` during parsing —
before any token is processed, so no token is emitted — while a list of
only registry names never produces such an error, whatever the tokens and
whatever the RNG choice oracle does. -/
theorem C8_unknown_transform_fails_fast :
    (∀ (c : Config) (pick : List (List Char) → Option (List Char))
        (tokens : List Token),
        (∃ n ∈ c.transforms, n ∉ knownTransformNames) →
        ∃ msg, apply_transforms c pick tokens =
          .error (.TransformError msg))
    ∧ (∀ (c : Config) (pick : List (List Char) → Option (List Char))
        (tokens : List Token),
        (∀ n ∈ c.transforms, n ∈ knownTransformNames) →
        ∃ out, apply_transforms c pick tokens = .ok out) := by
  constructor
  · intro c pick tokens h
    obtain ⟨msg, hmsg⟩ := mapExcept_parse_error c.transforms h
    exact ⟨msg, by simp [apply_transforms, hmsg, except_bind_error]⟩
  · intro c pick tokens h
    obtain ⟨ts, hts⟩ := mapExcept_ok parse_transform c.transforms
      fun a ha => (parse_transform_ok_iff a).mpr (h a ha)
    obtain ⟨out, hout⟩ := mapExcept_ok (pipeline_apply pick ts) tokens
      fun tok _ => pipeline_apply_ok pick ts tok
    exact ⟨out, by
      simp [apply_transforms, hts, except_bind_ok, pipeline_apply_all, hout]⟩

/-- Closed instance of `C8_unknown_transform_fails_fast`: the transform
list [upper, bogus] errors on any batch, [upper, reverse] succeeds. -/
theorem C8_unknown_transform_fails_fast_witness :
    (∃ msg, apply_transforms
        { Config.default with transforms := [str "upper", str "bogus"] }
        List.head? [str "x"] = .error (.TransformError msg))
    ∧ (∃ out, apply_transforms
        { Config.default with transforms := [str "upper", str "reverse"] }
        List.head? [str "x"] = .ok out) := by
  constructor
  · exact C8_unknown_transform_fails_fast.1
      { Config.default with transforms := [str "upper", str "bogus"] }
      List.head? [str "x"] (by decide)
  · exact C8_unknown_transform_fails_fast.2
      { Config.default with transforms := [str "upper", str "reverse"] }
      List.head? [str "x"] (by decide)

/-! ## Checkpoint load/save behaviour (claim C9) -/

/-- C9: `load_checkpoint` answers `Ok None` exactly when the checkpoint
file is absent; a present-but-undecodable file is a hard
`SerializationError`, never silently treated as "no prior checkpoint"; and
a snapshot saved then loaded for the same job id comes back with identical
`job_id`, `tokens_generated` and `last_token` (assuming the serde codec
round-trips, stated as the hypothesis on `dec` and `enc`). -/
theorem C9_checkpoint_load_semantics :
    (∀ (dec : List Char → Option CheckpointState) (fs : Fs) (job : List Char),
        fsLookup fs (checkpoint_path job) = none →
        load_checkpoint dec fs job = .ok none)
    ∧ (∀ (dec : List Char → Option CheckpointState) (fs : Fs)
        (job content : List Char),
        fsLookup fs (checkpoint_path job) = some content →
        load_checkpoint dec fs job ≠ .ok none)
    ∧ (∀ (dec : List Char → Option CheckpointState) (fs : Fs)
        (job content : List Char),
        fsLookup fs (checkpoint_path job) = some content →
        dec content = none →
        load_checkpoint dec fs job = .error .SerializationError)
    ∧ (∀ (enc : CheckpointState → List Char)
        (dec : List Char → Option CheckpointState) (fs : Fs)
        (job : List Char) (st : CheckpointState),
        dec (enc st) = some st →
        ∃ st', load_checkpoint dec (save_checkpoint enc fs job st) job =
            .ok (some st')
          ∧ st'.job_id = st.job_id
          ∧ st'.tokens_generated = st.tokens_generated
          ∧ st'.last_token = st.last_token) := by
  refine ⟨?_, ?_, ?_, ?_⟩
  · intro dec fs job h
    rw [load_checkpoint, h]
  · intro dec fs job content h
    rw [load_checkpoint, h]
    cases hd : dec content <;> simp [hd]
  · intro dec fs job content h hd
    rw [load_checkpoint, h]
    simp [hd]
  · intro enc dec fs job st h
    refine ⟨st, ?_, rfl, rfl, rfl⟩
    have hlook : fsLookup (save_checkpoint enc fs job st)
        (checkpoint_path job) = some (enc st) := by
      simp [save_checkpoint, fsWrite, fsLookup]
    rw [load_checkpoint, hlook]
    simp [h]

/-- A concrete checkpoint snapshot for the closed instance. -/
def demoState : CheckpointState where
  job_id := str "job1"
  timestamp := str "t0"
  config := Config.default
  last_token := some (str "aa")
  tokens_generated := 7
  current_length := 2
  start_index := 3

/-- A toy injective-on-demand codec standing in for serde_json in the
closed instance: it decodes exactly the one encoded snapshot. -/
def demoDec : List Char → Option CheckpointState :=
  fun s => if s = str "snap" then some demoState else none

/-- Closed instance of `C9_checkpoint_load_semantics`: empty directory
loads as none, a garbage file is a serialization error, and the saved demo
snapshot round-trips. -/
theorem C9_checkpoint_load_semantics_witness :
    load_checkpoint demoDec [] (str "job1") = .ok none
    ∧ load_checkpoint demoDec
        [(checkpoint_path (str "job1"), str "garbage")] (str "job1") =
        .error .SerializationError
    ∧ ∃ st', load_checkpoint demoDec
          (save_checkpoint (fun _ => str "snap") [] (str "job1") demoState)
          (str "job1") = .ok (some st')
        ∧ st'.job_id = demoState.job_id
        ∧ st'.tokens_generated = demoState.tokens_generated
        ∧ st'.last_token = demoState.last_token := by
  refine ⟨?_, ?_, ?_⟩
  · exact C9_checkpoint_load_semantics.1 demoDec [] (str "job1") rfl
  · exact C9_checkpoint_load_semantics.2.2.1 demoDec
      [(checkpoint_path (str "job1"), str "garbage")] (str "job1")
      (str "garbage") rfl (by decide)
  · exact C9_checkpoint_load_semantics.2.2.2 (fun _ => str "snap") demoDec []
      (str "job1") demoState (by decide)

/-! ## Filter stage field usage (claim C10) -/

/-- C10: the generator filter stage consults only `min_len`, `max_len` and
`charset_filter`: two configs agreeing on those three fields filter every
batch identically whatever their `exclude_charset`, `regex_pattern`,
`entropy_min` and `language_filter` hold; and when `max_len` and
`charset_filter` are unset the stage is the identity — in particular a
config with only `min_len` set applies no length predicate at all. -/
theorem C10_apply_filters_consults_three_fields :
    (∀ (c1 c2 : Config) (tokens : List Token),
        c1.filters.min_len = c2.filters.min_len →
        c1.filters.max_len = c2.filters.max_len →
        c1.filters.charset_filter = c2.filters.charset_filter →
        apply_filters c1 tokens = apply_filters c2 tokens)
    ∧ (∀ (c : Config) (tokens : List Token),
        c.filters.max_len = none → c.filters.charset_filter = none →
        apply_filters c tokens = tokens)
    ∧ (∀ (c : Config) (tokens : List Token) (mn mx : Nat) (cs : List Char),
        c.filters.min_len = some mn → c.filters.max_len = some mx →
        c.filters.charset_filter = some cs →
        apply_filters c tokens = tokens.filter (fun t =>
          (decide (mn ≤ t.length) && decide (t.length ≤ mx)) &&
            t.all (fun ch => cs.contains ch))) := by
  refine ⟨?_, ?_, ?_⟩
  · intro c1 c2 tokens h1 h2 h3
    rw [apply_filters, apply_filters, h1, h2, h3]
  · intro c tokens h1 h2
    cases hm : c.filters.min_len <;>
      simp [apply_filters, hm, h1, h2, apply_batch, chain_apply]
  · intro c tokens mn mx cs h1 h2 h3
    rw [apply_filters, h1, h2, h3]
    simp only [add_length, add_charset, apply_batch, List.nil_append,
      List.singleton_append]
    refine List.filter_congr fun t _ => ?_
    simp [chain_apply, Bool.and_assoc]

/-- A filter config with `min_len` set and every never-consulted field
populated. -/
def filterCfgA : Config :=
  { Config.default with
      filters :=
        { FilterConfig.default with
            min_len := some 2
            exclude_charset := some (str "xyz")
            regex_pattern := some (str "^a")
            entropy_min := some ((1 : ℚ) / 2)
            language_filter := some (str "english") } }

/-- The same filter config with the never-consulted fields left empty. -/
def filterCfgB : Config :=
  { Config.default with
      filters := { FilterConfig.default with min_len := some 2 } }

/-- Closed instance of `C10_apply_filters_consults_three_fields`: the
populated and empty variants filter identically, and both leave the batch
untouched because `max_len` is unset. -/
theorem C10_apply_filters_consults_three_fields_witness :
    apply_filters filterCfgA [str "a", str "bb"] =
        apply_filters filterCfgB [str "a", str "bb"]
    ∧ apply_filters filterCfgA [str "a", str "bb"] = [str "a", str "bb"] := by
  constructor
  · exact C10_apply_filters_consults_three_fields.1 filterCfgA filterCfgB
      [str "a", str "bb"] rfl rfl rfl
  · exact C10_apply_filters_consults_three_fields.2.1 filterCfgA
      [str "a", str "bb"] rfl rfl
